import Mathlib

/-
Verification of the operator-decomposition registry in
`torch/_decomp/__init__.py`.

The Python module keeps one table per mode ("post_autograd",
"pre_autograd", "meta"), each mapping an operator overload to a callable.
Registration (`register_decomposition` / `add_op_to_table`) expands an
overload packet to its member overloads, rejects duplicates, and inserts
into the chosen table.  `get_decompositions` reads back entries for a list
of requested overloads and packets.  `activate_meta` merges the three
tables (meta first, then post_autograd, then pre_autograd, first writer
wins), calls `py_impl` for every merged entry, and installs the entry into
`meta_lib` unless the dispatch dump contains "CompositeImplicitAutograd"
or some argument carries a read-only alias annotation.

Python dicts are embedded as insertion-ordered association lists with
update-in-place insertion; raising an exception is embedded as returning
an error value alongside the state the mutable dict was left in.
-/

set_option autoImplicit false
set_option linter.unusedVariables false

namespace Decomp

/-- Alias information carried by a formal argument of an operator schema
(the `alias_info` attribute, with its `is_write` flag). -/
structure AliasInfo where
  is_write : Bool
deriving DecidableEq, Repr

/-- A formal argument of an operator schema: only the `alias_info`
attribute is consulted by this module. -/
structure Argument where
  alias_info : Option AliasInfo
deriving DecidableEq, Repr

/-- The `_schema` of an operator overload: base name, overload
discriminator (empty string means the default overload) and the formal
arguments. -/
structure FunctionSchema where
  name : String
  overload_name : String
  arguments : List Argument
deriving DecidableEq, Repr

/-- A concrete operator overload (`OpOverload`).  `overloadpacket` records
the identity of the packet (family) the overload belongs to; the hosting
runtime guarantees a packet is uniquely determined by its name. -/
structure OpOverload where
  schema : FunctionSchema
  overloadpacket : String
deriving DecidableEq, Repr

/-- An operator family (`OpOverloadPacket`): a named group of overloads.
`members` is the expansion produced by `aten_op.overloads()` followed by
`getattr` in `add_op_to_table`. -/
structure OpOverloadPacket where
  packetName : String
  members : List OpOverload
deriving DecidableEq, Repr

/-- The three registry modes. -/
inductive Mode where
  | post_autograd
  | pre_autograd
  | meta
deriving DecidableEq, Repr

/-- A registration or query target: either a single overload or a whole
packet (`Union[OpOverload, OpOverloadPacket]`). -/
inductive AtenItem where
  | overload (o : OpOverload)
  | packet (p : OpOverloadPacket)
deriving DecidableEq, Repr

/-- `add_op_to_table` expands its argument to a list of concrete
overloads: a single overload stays itself, a packet contributes all of
its member overloads. -/
def AtenItem.expandOverloads : AtenItem → List OpOverload
  | .overload o => [o]
  | .packet p => p.members

/-- A mode's table: a Python dict from overload to callable, embedded as
an insertion-ordered association list. -/
def Table (F : Type) : Type := List (OpOverload × F)

namespace Table

variable {F : Type}

/-- Dict lookup (`registry[op]` / `dict.get`): the binding of the first
matching key. -/
def get? : Table F → OpOverload → Option F
  | [], _ => none
  | (k, v) :: rest, o => if k = o then some v else get? rest o

/-- Dict membership (`op in registry`). -/
def contains (t : Table F) (o : OpOverload) : Bool :=
  (t.get? o).isSome

/-- Dict assignment (`registry[op] = fn`): updates the binding in place
when the key is present, appends it otherwise (insertion order is
preserved, as for a Python dict). -/
def insert : Table F → OpOverload → F → Table F
  | [], o, f => [(o, f)]
  | (k, v) :: rest, o, f =>
      if k = o then (k, f) :: rest else (k, v) :: insert rest o f

/-- The keys of the table in iteration order (`for opo in registry`). -/
def keys (t : Table F) : List OpOverload :=
  t.map Prod.fst

end Table

instance {F : Type} : Membership (OpOverload × F) (Table F) :=
  inferInstanceAs (Membership (OpOverload × F) (List (OpOverload × F)))

instance {F : Type} [DecidableEq F] (x : OpOverload × F) (t : Table F) :
    Decidable (x ∈ t) := by
  change Decidable (List.Mem x t)
  exact inferInstanceAs (Decidable (x ∈ (id t : List (OpOverload × F))))

/-- The global decomposition table: one table per mode
(`global_decomposition_table`). -/
def GlobalTable (F : Type) : Type := Mode → Table F

/-- The qualified operator name built by `activate_meta` from the schema:
`name = op_overload._schema.name`, with `"." + overload_name` appended
when the overload name is non-empty.  The printed form `str(op_overload)`
used in the duplicate-registration message renders the same data. -/
def qualifiedName (o : OpOverload) : String :=
  if o.schema.overload_name = "" then o.schema.name
  else o.schema.name ++ "." ++ o.schema.overload_name

/-- The message of the `RuntimeError` raised on a duplicate registration:
`f"duplicate registrations for {op_overload}"`. -/
def dupMsg (o : OpOverload) : String :=
  "duplicate registrations for " ++ qualifiedName o

/-- The loop body of `add_op_to_table`: walk the expanded overloads in
order; raise on the first overload already present in the registry,
otherwise insert it and continue.  The returned table is the state the
mutable dict is left in, also when an error is raised partway. -/
def add_op_to_table {F : Type} (fn : F) :
    List OpOverload → Table F → Table F × Option String
  | [], reg => (reg, none)
  | o :: rest, reg =>
      if reg.contains o then (reg, some (dupMsg o))
      else add_op_to_table fn rest (reg.insert o fn)

/-- `tree_map(add_op_to_table, aten_op)`: apply `add_op_to_table` to each
leaf target in sequence, stopping at the first raised error. -/
def registerItems {F : Type} (fn : F) :
    List AtenItem → Table F → Table F × Option String
  | [], reg => (reg, none)
  | t :: ts, reg =>
      match add_op_to_table fn t.expandOverloads reg with
      | (r, none) => registerItems fn ts r
      | (r, some e) => (r, some e)

/-- `register_decomposition` applied to a callable: the destination
registry is the table of mode `m`; the other mode tables are untouched.
The `disable_meta` flag is accepted by the Python function but every use
of it is commented out in the source, so it has no effect and
`_disabled_meta_decomps` (the disabled-meta set, passed and returned here
as `disabled`) is never extended. -/
def register_decomposition {F : Type} (fn : F) (g : GlobalTable F) (m : Mode)
    (items : List AtenItem) (disable_meta : Bool) (disabled : List OpOverload) :
    GlobalTable F × List OpOverload × Option String :=
  (fun m' => if m' = m then (registerItems fn items (g m)).1 else g m',
   disabled,
   (registerItems fn items (g m)).2)

/-- The members of a packet registered in the table, in registry
iteration order: `packets_to_overloads[pname]` as built by the grouping
loop of `get_decompositions` (every registry key `opo` is appended to the
group of `opo.overloadpacket`). -/
def packetMembersIn {F : Type} (reg : Table F) (pname : String) :
    List OpOverload :=
  reg.keys.filter (fun o => o.overloadpacket = pname)

/-- The inner loop of `get_decompositions` for a requested packet:
`decompositions[op_overload] = registry[op_overload]` for every grouped
member overload.  The keys come from the registry, so the lookup always
succeeds; a missing key would leave the result untouched. -/
def addPacketMembers {F : Type} (reg : Table F) :
    List OpOverload → Table F → Table F
  | [], dec => dec
  | o :: os, dec =>
      addPacketMembers reg os
        (match reg.get? o with
         | some f => dec.insert o f
         | none => dec)

/-- The main loop of `get_decompositions`: for each requested item, a
packet found in the grouping index contributes all of its registered
member overloads, an overload present in the registry contributes itself,
and anything else is skipped silently. -/
def getDecompLoop {F : Type} (reg : Table F) :
    List AtenItem → Table F → Table F
  | [], dec => dec
  | it :: rest, dec =>
      getDecompLoop reg rest
        (match it with
         | .overload o =>
             match reg.get? o with
             | some f => dec.insert o f
             | none => dec
         | .packet p =>
             if (packetMembersIn reg p.packetName).isEmpty then dec
             else addPacketMembers reg (packetMembersIn reg p.packetName) dec)

/-- `get_decompositions(aten_ops, type)` reading from the table of the
chosen mode; it builds the packet grouping from the registry and folds
the requested items into an initially empty result dict. -/
def get_decompositions {F : Type} (g : GlobalTable F)
    (aten_ops : List AtenItem) (m : Mode) : Table F :=
  getDecompLoop (g m) aten_ops []

/-- One step of the merge loop of `activate_meta`: for every key of the
mode registry in iteration order, insert it into the working map unless
the working map already has it (`if opo not in activate_meta_table`). -/
def mergeRegistryInto {F : Type} : Table F → Table F → Table F
  | acc, [] => acc
  | acc, (o, f) :: rest =>
      mergeRegistryInto (if acc.contains o then acc else acc.insert o f) rest

/-- The merged working map of `activate_meta`: the three mode tables
folded in the order `["meta", "post_autograd", "pre_autograd"]`, first
assignment winning per overload. -/
def activate_meta_table {F : Type} (g : GlobalTable F) : Table F :=
  [Mode.meta, Mode.post_autograd, Mode.pre_autograd].foldl
    (fun acc m => mergeRegistryInto acc (g m)) []

/-- Substring test on character lists, auxiliary to `strContains`. -/
def charsLead : List Char → List Char → Bool
  | [], _ => true
  | _ :: _, [] => false
  | a :: as, b :: bs => a = b && charsLead as bs

/-- Python's `pat in s` on strings: `pat` occurs as a contiguous
substring of `s`. -/
def strContains (s pat : String) : Bool :=
  (List.range (s.data.length + 1)).any
    (fun i => charsLead pat.data (s.data.drop i))

/-- The read-only-alias test of `activate_meta`: some formal argument has
`alias_info is not None and not alias_info.is_write`. -/
def hasReadOnlyAliasArg (o : OpOverload) : Bool :=
  o.schema.arguments.any
    (fun a =>
      match a.alias_info with
      | some ai => !ai.is_write
      | none => false)

/-- The per-entry loop of `activate_meta` over the merged working map.
`dump` embeds `torch._C._dispatch_dump`, the dispatch-table dump for a
qualified name.  The first returned list records the `py_impl(Meta)`
registrations, performed unconditionally for every entry; the second
records the `meta_lib.impl` installs, performed only when the dump does
not contain "CompositeImplicitAutograd" and no argument is a read-only
alias — both exclusions fall through silently (`pass`). -/
def activateLoop {F : Type} (dump : String → String) :
    List (OpOverload × F) → List (OpOverload × F) × List (OpOverload × F)
  | [] => ([], [])
  | (o, fn) :: rest =>
      let (py, lib) := activateLoop dump rest
      ((o, fn) :: py,
       if strContains (dump (qualifiedName o)) "CompositeImplicitAutograd" then
         lib
       else if hasReadOnlyAliasArg o then lib
       else (o, fn) :: lib)

/-- `activate_meta()`: merge the three tables, then run the install loop.
Returns the `py_impl(Meta)` effect list and the `meta_lib.impl` effect
list. -/
def activate_meta {F : Type} (dump : String → String) (g : GlobalTable F) :
    List (OpOverload × F) × List (OpOverload × F) :=
  activateLoop dump (activate_meta_table g)

/-- The wrapper `_fn` synthesized by `decomposition_decorator` for a
callable declaring a two-slot tuple `out` parameter with fields `sum` and
`count`.  The wrapper pops each slot keyword (defaulting to `None`,
embedded as `none`), asserts that the slots are all set or all unset
(`assert all((o is None) == is_none for o in out_kwargs)`, embedded as an
error result raised before the body runs), and calls the body with
`out=None` or with `out` equal to the tuple of slot values. -/
def adaptedWrapper {A B R : Type} (f : Option (A × B) → R)
    (osum : Option A) (ocount : Option B) : Except String R :=
  let is_none := osum.isNone
  if ocount.isNone = is_none then
    Except.ok (f (match osum, ocount with
                  | some x, some y => some (x, y)
                  | _, _ => none))
  else
    Except.error "assertion failed: either all out kwargs are set or none are"

/-- A concrete overload used to instantiate theorems: `aten::add.Tensor`. -/
def oA : OpOverload :=
  { schema := { name := "aten::add", overload_name := "Tensor", arguments := [] }
    overloadpacket := "add" }

/-- A concrete overload used to instantiate theorems: `aten::add.Scalar`. -/
def oB : OpOverload :=
  { schema := { name := "aten::add", overload_name := "Scalar", arguments := [] }
    overloadpacket := "add" }

/-- A concrete overload used to instantiate theorems: `aten::mul` (default
overload, one read-only alias argument). -/
def oC : OpOverload :=
  { schema := { name := "aten::mul", overload_name := ""
                arguments := [{ alias_info := some { is_write := false } }] }
    overloadpacket := "mul" }

/-- The concrete packet of `oA` and `oB`. -/
def pAdd : OpOverloadPacket :=
  { packetName := "add", members := [oA, oB] }

/-- A concrete global table whose `post_autograd` table holds only `oB`. -/
def gB : GlobalTable Nat :=
  fun m => match m with
  | Mode.post_autograd => [(oB, 0)]
  | _ => []

/-- A concrete global table whose `meta` table holds only `oA`. -/
def gMetaA : GlobalTable Nat :=
  fun m => match m with
  | Mode.meta => [(oA, 5)]
  | _ => []

/-- A concrete global table binding `oA` with different callables in the
`meta` and `post_autograd` tables. -/
def gBoth : GlobalTable Nat :=
  fun m => match m with
  | Mode.meta => [(oA, 5)]
  | Mode.post_autograd => [(oA, 9)]
  | _ => []

/-- An overload is requested by a list of query items when the list
mentions it directly or mentions its packet.  This predicate is used to
state the result of `get_decompositions`. -/
def requestedIn (ops : List AtenItem) (o : OpOverload) : Bool :=
  ops.any (fun it =>
    match it with
    | .overload o' => decide (o' = o)
    | .packet p => decide (p.packetName = o.overloadpacket))

section Lemmas

variable {F : Type}

theorem Table.get?_insert (t : Table F) (k : OpOverload) (v : F)
    (x : OpOverload) :
    (t.insert k v).get? x = if k = x then some v else t.get? x := by
  induction t with
  | nil => simp [Table.insert, Table.get?]
  | cons hd rest ih =>
      obtain ⟨k', v'⟩ := hd
      by_cases hk : k' = k
      · subst hk
        by_cases hx : k' = x <;> simp [Table.insert, Table.get?, hx]
      · by_cases hx : k' = x
        · have hkx : ¬ k = x := by
            rw [← hx]; exact fun h => hk h.symm
          have hxk : ¬ x = k := fun h => hkx h.symm
          simp [Table.insert, Table.get?, hk, hx, hkx, hxk]
        · simp [Table.insert, Table.get?, hk, hx, ih]

theorem Table.contains_insert (t : Table F) (k : OpOverload) (v : F)
    (x : OpOverload) :
    (t.insert k v).contains x = (decide (k = x) || t.contains x) := by
  by_cases h : k = x <;>
    simp [Table.contains, Table.get?_insert, h]

theorem Table.keys_cons (k : OpOverload) (v : F) (rest : Table F) :
    Table.keys ((k, v) :: rest) = k :: Table.keys rest := rfl

theorem Table.mem_keys_iff_get? (t : Table F) (o : OpOverload) :
    o ∈ t.keys ↔ (t.get? o).isSome = true := by
  induction t with
  | nil => simp [Table.keys, Table.get?]
  | cons hd rest ih =>
      obtain ⟨k, v⟩ := hd
      rw [Table.keys_cons]
      by_cases h : k = o
      · subst h; simp [Table.get?]
      · have : ¬ o = k := fun h' => h h'.symm
        simp [Table.get?, h, this, ih]

theorem add_op_to_table_nil (fn : F) (reg : Table F) :
    add_op_to_table fn [] reg = (reg, none) := rfl

theorem add_op_to_table_cons (fn : F) (o : OpOverload) (rest : List OpOverload)
    (reg : Table F) :
    add_op_to_table fn (o :: rest) reg =
      if reg.contains o then (reg, some (dupMsg o))
      else add_op_to_table fn rest (reg.insert o fn) := rfl

/-- If an already-present overload occurs among the expanded overloads,
the loop of `add_op_to_table` raises a duplicate-registration error
naming one of the expanded overloads. -/
theorem add_op_to_table_dup (fn : F) :
    ∀ (ol : List OpOverload) (reg : Table F) (o : OpOverload),
      o ∈ ol → reg.contains o = true →
      ∃ o', o' ∈ ol ∧ (add_op_to_table fn ol reg).2 = some (dupMsg o')
  | [], _, _, ho, _ => absurd ho (List.not_mem_nil _)
  | o1 :: rest, reg, o, ho, hc => by
      rw [add_op_to_table_cons]
      by_cases h1 : reg.contains o1 = true
      · exact ⟨o1, List.mem_cons_self _ _, by simp [h1]⟩
      · have hne : o ≠ o1 := by
          intro h; rw [h] at hc; exact h1 hc
        have ho' : o ∈ rest := by
          rcases List.mem_cons.mp ho with h | h
          · exact absurd h hne
          · exact h
        have hc' : (reg.insert o1 fn).contains o = true := by
          simp only [Table.contains, Table.get?_insert]
          rw [if_neg (fun h => hne h.symm)]
          exact hc
        obtain ⟨o', ho'', he⟩ := add_op_to_table_dup fn rest (reg.insert o1 fn) o ho' hc'
        exact ⟨o', List.mem_cons_of_mem _ ho'', by simp [h1, he]⟩

/-- A successful run of the `add_op_to_table` loop preserves every
binding already present in the registry. -/
theorem add_op_to_table_preserves (fn : F) :
    ∀ (ol : List OpOverload) (reg : Table F) (k : OpOverload) (w : F),
      (add_op_to_table fn ol reg).2 = none → reg.get? k = some w →
      (add_op_to_table fn ol reg).1.get? k = some w
  | [], reg, k, w, _, hw => hw
  | o :: rest, reg, k, w, hs, hw => by
      rw [add_op_to_table_cons] at hs ⊢
      by_cases h1 : reg.contains o = true
      · simp [h1] at hs
      · have hne : ¬ o = k := by
          intro h
          rw [h] at h1
          exact h1 (by simp [Table.contains, hw])
        have hw' : (reg.insert o fn).get? k = some w := by
          rw [Table.get?_insert, if_neg hne]; exact hw
        simp only [h1, if_false] at hs ⊢
        exact add_op_to_table_preserves fn rest (reg.insert o fn) k w hs hw'

/-- After a successful run of the `add_op_to_table` loop, every expanded
overload is bound to the registered callable. -/
theorem add_op_to_table_mem_get? (fn : F) :
    ∀ (ol : List OpOverload) (reg : Table F) (o : OpOverload),
      (add_op_to_table fn ol reg).2 = none → o ∈ ol →
      (add_op_to_table fn ol reg).1.get? o = some fn
  | [], _, o, _, ho => absurd ho (List.not_mem_nil _)
  | o1 :: rest, reg, o, hs, ho => by
      rw [add_op_to_table_cons] at hs ⊢
      by_cases h1 : reg.contains o1 = true
      · simp [h1] at hs
      · rw [if_neg h1] at hs ⊢
        rcases List.mem_cons.mp ho with h | h
        · subst h
          have hw : (reg.insert o fn).get? o = some fn := by
            rw [Table.get?_insert, if_pos rfl]
          exact add_op_to_table_preserves fn rest (reg.insert o fn) o fn hs hw
        · exact add_op_to_table_mem_get? fn rest (reg.insert o1 fn) o hs h

/-- Registering a one-element target list is exactly one run of
`add_op_to_table` over the expansion of that target. -/
theorem registerItems_single (fn : F) (t : AtenItem) (reg : Table F) :
    registerItems fn [t] reg = add_op_to_table fn t.expandOverloads reg := by
  rcases h : add_op_to_table fn t.expandOverloads reg with ⟨r, e⟩
  cases e <;> simp [registerItems, h]

/-- Running `add_op_to_table` once on a list of overloads is the same as
registering those overloads one target at a time, stopping at the first
error. -/
theorem add_op_to_table_eq_registerItems (fn : F) :
    ∀ (ms : List OpOverload) (reg : Table F),
      add_op_to_table fn ms reg =
        registerItems fn (ms.map AtenItem.overload) reg
  | [], reg => rfl
  | o :: rest, reg => by
      by_cases h1 : reg.contains o = true
      · have hsingle : add_op_to_table fn [o] reg = (reg, some (dupMsg o)) := by
          rw [add_op_to_table_cons, if_pos h1]
        have hleft : add_op_to_table fn (o :: rest) reg = (reg, some (dupMsg o)) := by
          rw [add_op_to_table_cons, if_pos h1]
        rw [hleft, List.map_cons]
        simp [registerItems, AtenItem.expandOverloads, hsingle]
      · have hsingle : add_op_to_table fn [o] reg = (reg.insert o fn, none) := by
          rw [add_op_to_table_cons, if_neg h1, add_op_to_table_nil]
        have hleft : add_op_to_table fn (o :: rest) reg =
            add_op_to_table fn rest (reg.insert o fn) := by
          rw [add_op_to_table_cons, if_neg h1]
        rw [hleft, List.map_cons,
            add_op_to_table_eq_registerItems fn rest (reg.insert o fn)]
        simp [registerItems, AtenItem.expandOverloads, hsingle]

/-- Lookup after one merge step: a binding already in the working map is
kept, and a key coming only from the merged registry gets the registry's
binding. -/
theorem mergeRegistryInto_get? :
    ∀ (reg acc : Table F) (o : OpOverload),
      (mergeRegistryInto acc reg).get? o =
        if acc.contains o then acc.get? o else reg.get? o
  | [], acc, o => by
      by_cases h : acc.contains o = true
      · simp [mergeRegistryInto, Table.get?, h]
      · have hn : acc.get? o = none :=
          Option.not_isSome_iff_eq_none.mp (by simpa [Table.contains] using h)
        simp [mergeRegistryInto, Table.get?, h, hn]
  | (k, f) :: rest, acc, o => by
      show (mergeRegistryInto (if acc.contains k then acc else acc.insert k f) rest).get? o = _
      rw [mergeRegistryInto_get? rest]
      by_cases hk : k = o
      · subst hk
        by_cases hc : acc.contains k = true
        · simp [hc, Table.get?]
        · have h1 : (acc.insert k f).contains k = true := by
            simp [Table.contains, Table.get?_insert]
          simp [hc, h1, Table.get?_insert, Table.get?]
      · have hget : (if acc.contains k then acc else acc.insert k f).get? o
            = acc.get? o := by
          by_cases hc : acc.contains k = true
          · simp [hc]
          · simp [hc, Table.get?_insert, hk]
        have hcon : (if acc.contains k then acc else acc.insert k f).contains o
            = acc.contains o :=
          congrArg Option.isSome hget
        rw [hcon, hget]
        simp [Table.get?, hk]

/-- The merged working map agrees with the meta table on every overload
the meta table binds. -/
theorem activate_meta_table_get?_meta (g : GlobalTable F) (o : OpOverload)
    (f : F) (h : (g Mode.meta).get? o = some f) :
    (activate_meta_table g).get? o = some f := by
  have h0 : (mergeRegistryInto ([] : Table F) (g Mode.meta)).get? o = some f := by
    rw [mergeRegistryInto_get?]
    simp [Table.contains, Table.get?, h]
  have h1 : (mergeRegistryInto (mergeRegistryInto ([] : Table F) (g Mode.meta))
      (g Mode.post_autograd)).get? o = some f := by
    rw [mergeRegistryInto_get?]
    simp [Table.contains, h0]
  show (mergeRegistryInto (mergeRegistryInto (mergeRegistryInto [] (g Mode.meta))
      (g Mode.post_autograd)) (g Mode.pre_autograd)).get? o = some f
  rw [mergeRegistryInto_get?]
  simp [Table.contains, h1]

/-- The `py_impl(Meta)` effect list of the activation loop is the whole
input list, in order. -/
theorem activateLoop_fst (dump : String → String) :
    ∀ l : List (OpOverload × F), (activateLoop dump l).1 = l
  | [] => rfl
  | (o, fn) :: rest => by
      show ((o, fn) :: (activateLoop dump rest).1, _).1 = _
      rw [activateLoop_fst dump rest]

/-- Membership in the `meta_lib.impl` effect list of the activation loop:
an entry is installed exactly when it occurs in the input and neither
exclusion rule fires for its overload. -/
theorem activateLoop_snd_mem (dump : String → String) :
    ∀ (l : List (OpOverload × F)) (o : OpOverload) (f : F),
      (o, f) ∈ (activateLoop dump l).2 ↔
        ((o, f) ∈ l ∧
          strContains (dump (qualifiedName o)) "CompositeImplicitAutograd" = false ∧
          hasReadOnlyAliasArg o = false)
  | [], o, f => by simp [activateLoop]
  | (o1, f1) :: rest, o, f => by
      have ih := activateLoop_snd_mem dump rest o f
      show (o, f) ∈ (if strContains (dump (qualifiedName o1)) "CompositeImplicitAutograd" then
          (activateLoop dump rest).2
        else if hasReadOnlyAliasArg o1 then (activateLoop dump rest).2
        else (o1, f1) :: (activateLoop dump rest).2) ↔ _
      by_cases hC : strContains (dump (qualifiedName o1)) "CompositeImplicitAutograd" = true
      · rw [if_pos hC, ih]
        constructor
        · rintro ⟨hm, hc⟩
          exact ⟨List.mem_cons_of_mem _ hm, hc⟩
        · rintro ⟨hm, hc⟩
          rcases List.mem_cons.mp hm with he | hm'
          · have : o = o1 := congrArg Prod.fst he
            rw [this] at hc
            rw [hc.1] at hC
            cases hC
          · exact ⟨hm', hc⟩
      · rw [if_neg hC]
        have hC' : strContains (dump (qualifiedName o1)) "CompositeImplicitAutograd" = false :=
          Bool.eq_false_iff.mpr hC
        by_cases hA : hasReadOnlyAliasArg o1 = true
        · rw [if_pos hA, ih]
          constructor
          · rintro ⟨hm, hc⟩
            exact ⟨List.mem_cons_of_mem _ hm, hc⟩
          · rintro ⟨hm, hc⟩
            rcases List.mem_cons.mp hm with he | hm'
            · have : o = o1 := congrArg Prod.fst he
              rw [this] at hc
              rw [hc.2] at hA
              cases hA
            · exact ⟨hm', hc⟩
        · rw [if_neg hA]
          have hA' : hasReadOnlyAliasArg o1 = false := Bool.eq_false_iff.mpr hA
          constructor
          · intro hm
            rcases List.mem_cons.mp hm with he | hm'
            · have ho : o = o1 := congrArg Prod.fst he
              refine ⟨List.mem_cons.mpr (Or.inl he), ?_, ?_⟩
              · rw [ho]; exact hC'
              · rw [ho]; exact hA'
            · obtain ⟨hm'', hc⟩ := ih.mp hm'
              exact ⟨List.mem_cons_of_mem _ hm'', hc⟩
          · rintro ⟨hm, hc⟩
            rcases List.mem_cons.mp hm with he | hm'
            · exact List.mem_cons.mpr (Or.inl he)
            · exact List.mem_cons_of_mem _ (ih.mpr ⟨hm', hc⟩)

/-- Membership in a registry's packet grouping. -/
theorem mem_packetMembersIn (reg : Table F) (pname : String) (x : OpOverload) :
    x ∈ packetMembersIn reg pname ↔
      ((reg.get? x).isSome = true ∧ x.overloadpacket = pname) := by
  unfold packetMembersIn
  rw [List.mem_filter]
  constructor
  · rintro ⟨hmem, hp⟩
    exact ⟨(Table.mem_keys_iff_get? reg x).mp hmem, by simpa using hp⟩
  · rintro ⟨hs, hp⟩
    exact ⟨(Table.mem_keys_iff_get? reg x).mpr hs, by simpa using hp⟩

/-- Lookup after copying a packet's registered members into the result
dict. -/
theorem addPacketMembers_get? (reg : Table F) :
    ∀ (ms : List OpOverload) (dec : Table F) (x : OpOverload),
      (addPacketMembers reg ms dec).get? x =
        if x ∈ ms ∧ (reg.get? x).isSome = true then reg.get? x
        else dec.get? x
  | [], dec, x => by simp [addPacketMembers]
  | o :: os, dec, x => by
      show (addPacketMembers reg os _).get? x = _
      rw [addPacketMembers_get? reg os]
      by_cases hmem : x ∈ os ∧ (reg.get? x).isSome = true
      · rw [if_pos hmem, if_pos ⟨List.mem_cons_of_mem _ hmem.1, hmem.2⟩]
      · rw [if_neg hmem]
        by_cases ho : o = x
        · subst ho
          rcases hr : reg.get? o with _ | f
          · simp
          · rw [if_pos ⟨List.mem_cons_self _ _, rfl⟩, Table.get?_insert, if_pos rfl]
        · have hx : ¬ (x ∈ o :: os ∧ (reg.get? x).isSome = true) := by
            rintro ⟨hm, hs⟩
            rcases List.mem_cons.mp hm with h' | h'
            · exact ho h'.symm
            · exact hmem ⟨h', hs⟩
          rw [if_neg hx]
          rcases hr : reg.get? o with _ | f
          · rfl
          · rw [Table.get?_insert, if_neg ho]

/-- Unfolding of `requestedIn` over the head item. -/
theorem requestedIn_cons (it : AtenItem) (rest : List AtenItem) (x : OpOverload) :
    requestedIn (it :: rest) x =
      ((match it with
        | .overload o' => decide (o' = x)
        | .packet p => decide (p.packetName = x.overloadpacket)) ||
       requestedIn rest x) := by
  simp [requestedIn]

/-- Lookup in the result dict built by the loop of `get_decompositions`:
a requested overload present in the registry resolves to its registry
binding, everything else falls through to the accumulator. -/
theorem getDecompLoop_get? (reg : Table F) :
    ∀ (ops : List AtenItem) (dec : Table F) (x : OpOverload),
      (getDecompLoop reg ops dec).get? x =
        if requestedIn ops x = true ∧ (reg.get? x).isSome = true then reg.get? x
        else dec.get? x
  | [], dec, x => by simp [getDecompLoop, requestedIn]
  | it :: rest, dec, x => by
      show (getDecompLoop reg rest _).get? x = _
      rw [getDecompLoop_get? reg rest]
      by_cases hr : requestedIn rest x = true ∧ (reg.get? x).isSome = true
      · rw [if_pos hr]
        have hall : requestedIn (it :: rest) x = true ∧ (reg.get? x).isSome = true := by
          refine ⟨?_, hr.2⟩
          rw [requestedIn_cons, hr.1, Bool.or_true]
        rw [if_pos hall]
      · rw [if_neg hr]
        cases it with
        | overload o =>
            show (match reg.get? o with
                  | some f => dec.insert o f
                  | none => dec).get? x =
                if requestedIn (AtenItem.overload o :: rest) x = true ∧
                    (reg.get? x).isSome = true then reg.get? x
                else dec.get? x
            by_cases ho : o = x
            · subst ho
              rcases hg : reg.get? o with _ | f
              · simp
              · have hreq : requestedIn (AtenItem.overload o :: rest) o = true := by
                  rw [requestedIn_cons]
                  simp
                rw [if_pos ⟨hreq, rfl⟩, Table.get?_insert, if_pos rfl]
            · have hx : ¬ (requestedIn (AtenItem.overload o :: rest) x = true ∧
                  (reg.get? x).isSome = true) := by
                rintro ⟨h1, h2⟩
                rw [requestedIn_cons] at h1
                rcases Bool.or_eq_true_iff.mp h1 with h' | h'
                · exact ho (of_decide_eq_true h')
                · exact hr ⟨h', h2⟩
              rw [if_neg hx]
              rcases reg.get? o with _ | f
              · rfl
              · rw [Table.get?_insert, if_neg ho]
        | packet p =>
            show (if (packetMembersIn reg p.packetName).isEmpty then dec
                  else addPacketMembers reg (packetMembersIn reg p.packetName) dec).get? x =
                if requestedIn (AtenItem.packet p :: rest) x = true ∧
                    (reg.get? x).isSome = true then reg.get? x
                else dec.get? x
            have hmid : (if (packetMembersIn reg p.packetName).isEmpty then dec
                else addPacketMembers reg (packetMembersIn reg p.packetName) dec).get? x =
                if p.packetName = x.overloadpacket ∧ (reg.get? x).isSome = true then
                  reg.get? x
                else dec.get? x := by
              by_cases he : (packetMembersIn reg p.packetName).isEmpty = true
              · rw [if_pos he]
                have hx : ¬ (p.packetName = x.overloadpacket ∧
                    (reg.get? x).isSome = true) := by
                  rintro ⟨h1, h2⟩
                  have hm : x ∈ packetMembersIn reg p.packetName :=
                    (mem_packetMembersIn _ _ _).mpr ⟨h2, h1.symm⟩
                  rw [List.isEmpty_iff] at he
                  rw [he] at hm
                  exact absurd hm (List.not_mem_nil _)
                rw [if_neg hx]
              · rw [if_neg he, addPacketMembers_get?]
                by_cases hx : x ∈ packetMembersIn reg p.packetName ∧
                    (reg.get? x).isSome = true
                · have hc : p.packetName = x.overloadpacket ∧
                      (reg.get? x).isSome = true :=
                    ⟨((mem_packetMembersIn _ _ _).mp hx.1).2.symm, hx.2⟩
                  rw [if_pos hx, if_pos hc]
                · have hc : ¬ (p.packetName = x.overloadpacket ∧
                      (reg.get? x).isSome = true) := by
                    rintro ⟨h1, h2⟩
                    exact hx ⟨(mem_packetMembersIn _ _ _).mpr ⟨h2, h1.symm⟩, h2⟩
                  rw [if_neg hx, if_neg hc]
            rw [hmid]
            by_cases hp : p.packetName = x.overloadpacket ∧ (reg.get? x).isSome = true
            · rw [if_pos hp]
              have hall : requestedIn (AtenItem.packet p :: rest) x = true ∧
                  (reg.get? x).isSome = true := by
                refine ⟨?_, hp.2⟩
                rw [requestedIn_cons]
                show (decide (p.packetName = x.overloadpacket) ||
                    requestedIn rest x) = true
                have hd : decide (p.packetName = x.overloadpacket) = true :=
                  decide_eq_true hp.1
                rw [hd, Bool.true_or]
              rw [if_pos hall]
            · rw [if_neg hp]
              have hx : ¬ (requestedIn (AtenItem.packet p :: rest) x = true ∧
                  (reg.get? x).isSome = true) := by
                rintro ⟨h1, h2⟩
                rw [requestedIn_cons] at h1
                rcases Bool.or_eq_true_iff.mp h1 with h' | h'
                · exact hp ⟨of_decide_eq_true h', h2⟩
                · exact hr ⟨h', h2⟩
              rw [if_neg hx]

end Lemmas

/-- Claim C1: for every mode and every concrete overload already present
as a key in that mode's table, a register call whose target expands to
that overload raises the duplicate-registration error naming one of the
expanded overloads — the duplicate check is applied to each expanded
overload — and registering the already-present overload directly raises
the error naming exactly that operator. -/
theorem claim1_duplicate_error {F : Type} (fn : F) (g : GlobalTable F)
    (m : Mode) (t : AtenItem) (o : OpOverload) (dm : Bool)
    (dis : List OpOverload)
    (ho : o ∈ t.expandOverloads) (hdup : (g m).contains o = true) :
    (∃ o', o' ∈ t.expandOverloads ∧
        (register_decomposition fn g m [t] dm dis).2.2 = some (dupMsg o')) ∧
    (register_decomposition fn g m [AtenItem.overload o] dm dis).2.2 =
        some (dupMsg o) := by
  constructor
  · obtain ⟨o', ho', he⟩ := add_op_to_table_dup fn t.expandOverloads (g m) o ho hdup
    refine ⟨o', ho', ?_⟩
    show (registerItems fn [t] (g m)).2 = _
    rw [registerItems_single]
    exact he
  · show (registerItems fn [AtenItem.overload o] (g m)).2 = _
    rw [registerItems_single]
    show (add_op_to_table fn [o] (g m)).2 = _
    rw [add_op_to_table_cons, if_pos hdup]

/-- Witness for C1: `oB` is already registered in the `post_autograd`
table of `gB`, and registering it again fails with the duplicate error. -/
theorem claim1_witness :
    (∃ o', o' ∈ (AtenItem.overload oB).expandOverloads ∧
        (register_decomposition (7 : Nat) gB Mode.post_autograd
          [AtenItem.overload oB] false []).2.2 = some (dupMsg o')) ∧
    (register_decomposition (7 : Nat) gB Mode.post_autograd
        [AtenItem.overload oB] false []).2.2 = some (dupMsg oB) :=
  claim1_duplicate_error 7 gB Mode.post_autograd (AtenItem.overload oB) oB
    false [] (by decide) (by decide)

/-- Counterexample to claim C2: registering the packet with members
`[oA, oB]` into a table that already holds `oB` fails with the duplicate
error, yet the failed call has inserted `oA`, so the destination table is
not what it was before the call. -/
theorem claim2_counterexample :
    (register_decomposition (7 : Nat) gB Mode.post_autograd
        [AtenItem.packet pAdd] false []).2.2 = some (dupMsg oB) ∧
    ((register_decomposition (7 : Nat) gB Mode.post_autograd
        [AtenItem.packet pAdd] false []).1 Mode.post_autograd).contains oA
      = true ∧
    (gB Mode.post_autograd).contains oA = false := by
  refine ⟨?_, ?_, ?_⟩ <;> decide

/-- Claim C2 (amended): when the registration target is a single concrete
overload already present in mode `m`'s table, the call fails with the
duplicate-registration error and every mode's table is exactly what it
was before the call; for a target expanding to several overloads, the
expanded overloads preceding the first duplicate are inserted by the
failed call, so the table in general differs afterwards. -/
theorem claim2_amended_single_target {F : Type} (fn : F) (g : GlobalTable F)
    (m : Mode) (o : OpOverload) (dm : Bool) (dis : List OpOverload)
    (hdup : (g m).contains o = true) :
    (∀ m', (register_decomposition fn g m [AtenItem.overload o] dm dis).1 m'
        = g m') ∧
    (register_decomposition fn g m [AtenItem.overload o] dm dis).2.2 =
        some (dupMsg o) := by
  have hadd : add_op_to_table fn [o] (g m) = (g m, some (dupMsg o)) := by
    rw [add_op_to_table_cons, if_pos hdup]
  have hri : registerItems fn [AtenItem.overload o] (g m) =
      (g m, some (dupMsg o)) := by
    rw [registerItems_single]
    exact hadd
  constructor
  · intro m'
    show (if m' = m then (registerItems fn [AtenItem.overload o] (g m)).1
        else g m') = g m'
    rw [hri]
    by_cases hm : m' = m
    · rw [if_pos hm, hm]
    · rw [if_neg hm]
  · show (registerItems fn [AtenItem.overload o] (g m)).2 = _
    rw [hri]

/-- Witness for the amended C2 at a concrete table and overload. -/
theorem claim2_witness :
    (∀ m', (register_decomposition (7 : Nat) gB Mode.post_autograd
        [AtenItem.overload oB] false []).1 m' = gB m') ∧
    (register_decomposition (7 : Nat) gB Mode.post_autograd
        [AtenItem.overload oB] false []).2.2 = some (dupMsg oB) :=
  claim2_amended_single_target 7 gB Mode.post_autograd oB false [] (by decide)

/-- Claim C3: the activation engine's merged working map is built over
the modes in the order meta, post_autograd, pre_autograd with first
assignment winning, so an overload bound in the meta table keeps its meta
callable in the merged map whatever the other two tables bind it to. -/
theorem claim3_meta_precedence {F : Type} (g : GlobalTable F)
    (o : OpOverload) (f : F) (h : (g Mode.meta).get? o = some f) :
    (activate_meta_table g).get? o = some f :=
  activate_meta_table_get?_meta g o f h

/-- Witness for C3: `oA` is bound to `5` in the meta table and to `9` in
the post_autograd table of `gBoth`; the merged map keeps `5`. -/
theorem claim3_witness : (activate_meta_table gBoth).get? oA = some 5 :=
  claim3_meta_precedence gBoth oA 5 (by decide)

/-- Claim C4: an entry of the merged working map is installed as the
abstract (meta) implementation via `meta_lib.impl` if and only if the
dispatch-table dump of its qualified name does not contain the
composite-implicit-autograd marker and no formal argument carries a
read-only alias annotation; excluded entries are silently omitted from
the install list, no error is produced. -/
theorem claim4_install_iff {F : Type} (dump : String → String)
    (g : GlobalTable F) (o : OpOverload) (f : F)
    (h : (o, f) ∈ activate_meta_table g) :
    ((o, f) ∈ (activate_meta dump g).2 ↔
      (strContains (dump (qualifiedName o)) "CompositeImplicitAutograd"
          = false ∧
       hasReadOnlyAliasArg o = false)) := by
  unfold activate_meta
  rw [activateLoop_snd_mem]
  constructor
  · rintro ⟨_, hc⟩
    exact hc
  · intro hc
    exact ⟨h, hc⟩

/-- Witness for C4 at a concrete table whose dispatch dump is empty. -/
theorem claim4_witness :
    ((oA, 5) ∈ (activate_meta (fun _ => "") gMetaA).2 ↔
      (strContains "" "CompositeImplicitAutograd" = false ∧
       hasReadOnlyAliasArg oA = false)) :=
  claim4_install_iff (fun _ => "") gMetaA oA 5 (by decide)

/-- Claim C5: the adapted wrapper synthesized for a callable with a
two-slot `out` struct invokes the body with `out=None` when neither slot
keyword is supplied, invokes it with the aggregate of both values when
both are supplied, and fails with the all-or-none adaptation error —
without invoking the body — when exactly one slot is supplied. -/
theorem claim5_out_adaptation {A B R : Type} (f : Option (A × B) → R)
    (x : A) (y : B) :
    adaptedWrapper f none none = Except.ok (f none) ∧
    adaptedWrapper f (some x) (some y) = Except.ok (f (some (x, y))) ∧
    (∃ e, adaptedWrapper f (some x) none = Except.error e) ∧
    (∃ e, adaptedWrapper f none (some y) = Except.error e) :=
  ⟨rfl, rfl, ⟨_, rfl⟩, ⟨_, rfl⟩⟩

/-- Claim C6: registering a packet once produces exactly the same call
result — table state, disabled set and error outcome — as registering its
member overloads individually in order, and on success every member
overload is bound to the registered callable in the destination mode's
table. -/
theorem claim6_family_eq_individual {F : Type} (fn : F) (g : GlobalTable F)
    (m : Mode) (p : OpOverloadPacket) (dm : Bool) (dis : List OpOverload) :
    register_decomposition fn g m [AtenItem.packet p] dm dis =
      register_decomposition fn g m (p.members.map AtenItem.overload) dm dis ∧
    ((register_decomposition fn g m [AtenItem.packet p] dm dis).2.2 = none →
      ∀ o ∈ p.members,
        ((register_decomposition fn g m [AtenItem.packet p] dm dis).1 m).get? o
          = some fn) := by
  have hkey : registerItems fn [AtenItem.packet p] (g m) =
      registerItems fn (p.members.map AtenItem.overload) (g m) := by
    rw [registerItems_single]
    show add_op_to_table fn p.members (g m) = _
    exact add_op_to_table_eq_registerItems fn p.members (g m)
  constructor
  · unfold register_decomposition
    rw [hkey]
  · intro hs o hmem
    have hs' : (add_op_to_table fn p.members (g m)).2 = none := by
      have hx : (registerItems fn [AtenItem.packet p] (g m)).2 = none := hs
      rw [registerItems_single] at hx
      exact hx
    have hget := add_op_to_table_mem_get? fn p.members (g m) o hs' hmem
    show (if m = m then (registerItems fn [AtenItem.packet p] (g m)).1
        else g m).get? o = some fn
    rw [if_pos rfl, registerItems_single]
    exact hget

/-- Witness for C6: registering the packet `pAdd` into an empty registry
equals registering `oA` and `oB` individually, and both members become
queryable. -/
theorem claim6_witness :
    register_decomposition (7 : Nat) (fun _ => []) Mode.meta
        [AtenItem.packet pAdd] false [] =
      register_decomposition (7 : Nat) (fun _ => []) Mode.meta
        (pAdd.members.map AtenItem.overload) false [] ∧
    ((register_decomposition (7 : Nat) (fun _ => []) Mode.meta
        [AtenItem.packet pAdd] false []).2.2 = none →
      ∀ o ∈ pAdd.members,
        ((register_decomposition (7 : Nat) (fun _ => []) Mode.meta
            [AtenItem.packet pAdd] false []).1 Mode.meta).get? o = some 7) :=
  claim6_family_eq_individual 7 (fun _ => []) Mode.meta pAdd false []

/-- Claim C7: `get_decompositions` returns exactly the requested entries
found in the chosen mode's table — lookup in the result equals the
registry binding for an overload requested directly or through its
packet, and is empty for everything else; requested items absent from the
table are skipped without an error (the function is total). -/
theorem claim7_get_decompositions {F : Type} (g : GlobalTable F)
    (ops : List AtenItem) (m : Mode) (o : OpOverload) :
    (get_decompositions g ops m).get? o =
      if requestedIn ops o = true then (g m).get? o else none := by
  unfold get_decompositions
  rw [getDecompLoop_get?]
  by_cases hreq : requestedIn ops o = true
  · by_cases hs : ((g m).get? o).isSome = true
    · rw [if_pos ⟨hreq, hs⟩, if_pos hreq]
    · have hn : (g m).get? o = none := Option.not_isSome_iff_eq_none.mp hs
      rw [if_neg (fun hc => hs hc.2), if_pos hreq, hn]
      rfl
  · rw [if_neg (fun hc => hreq hc.1), if_neg hreq]
    rfl

/-- Claim C8 concerns `disable_meta`: in the source every use of the flag
inside `add_op_to_table` is commented out, so a register call with
`disable_meta=true` leaves the disabled-meta set exactly as it was and
behaves identically to a call with `disable_meta=false` — the addition of
the expanded overloads to the set claimed by the specification (and by
the function's own docstring) never happens. -/
theorem claim8_disable_meta_inert {F : Type} (fn : F) (g : GlobalTable F)
    (m : Mode) (items : List AtenItem) (dis : List OpOverload) :
    (register_decomposition fn g m items true dis).2.1 = dis ∧
    register_decomposition fn g m items true dis =
      register_decomposition fn g m items false dis :=
  ⟨rfl, rfl⟩

/-- Claim C9: registration writes only to the destination mode's table;
every other mode's table, entry for entry, is exactly unchanged. -/
theorem claim9_mode_isolation {F : Type} (fn : F) (g : GlobalTable F)
    (m1 m2 : Mode) (items : List AtenItem) (dm : Bool)
    (dis : List OpOverload) (h : m2 ≠ m1) :
    (register_decomposition fn g m1 items dm dis).1 m2 = g m2 := by
  show (if m2 = m1 then (registerItems fn items (g m1)).1 else g m2) = g m2
  rw [if_neg h]

/-- Witness for C9: registering `oA` in the meta table leaves the
post_autograd table of `gB` unchanged. -/
theorem claim9_witness :
    (register_decomposition (7 : Nat) gB Mode.meta [AtenItem.overload oA]
      false []).1 Mode.post_autograd = gB Mode.post_autograd :=
  claim9_mode_isolation 7 gB Mode.meta Mode.post_autograd
    [AtenItem.overload oA] false [] (by decide)

/-- Claim C10: the activation engine performs the `py_impl(Meta)`
registration for every entry of the merged working map, before and
independently of the exclusion rules — the `py_impl` effect list is the
whole merged map, so overloads excluded from the `meta_lib.impl` install
still receive the python Meta registration. -/
theorem claim10_py_impl_all {F : Type} (dump : String → String)
    (g : GlobalTable F) :
    (activate_meta dump g).1 = activate_meta_table g :=
  activateLoop_fst dump (activate_meta_table g)

end Decomp
